import Mathlib

/-!
Verification of the Mini-Git version-control core (core.cpp, manager.cpp).

The program stores full-state snapshots of a working directory as commits,
chained through parent identifiers, with a staging-area overlay and a
three-way status classifier.  We embed the repository state as explicit
data (association lists from relative paths to byte contents) and each
operation as a Lean function translated from the corresponding C++
function, then prove the specified properties about those functions.
-/

namespace MiniGit

/-- Byte content of a regular file (each element one byte). -/
abbrev Content := List Nat

/-- A directory tree of regular files: association list from a relative
path (as rendered by the filesystem, with components separated by a slash)
to the file's byte content. -/
abbrev FileTree := List (String × Content)

/-- First-match lookup in an association list keyed by strings.  Models a
filesystem lookup of a relative path inside a directory. -/
def alookup {α : Type} : List (String × α) → String → Option α
  | [], _ => none
  | e :: t, k => if e.1 = k then some e.2 else alookup t k

/-- Delete the entry at the given key.  Models fs remove of a single file
(a no-op when the file is absent). -/
def aremove {α : Type} : List (String × α) → String → List (String × α)
  | [], _ => []
  | e :: t, k => if e.1 = k then aremove t k else e :: aremove t k

/-- Overwriting insert.  Models removing any existing destination file and
then copying the source there (fs remove followed by fs copy_file, or
copy_file with overwrite_existing). -/
def ainsert {α : Type} (t : List (String × α)) (k : String) (v : α) :
    List (String × α) :=
  aremove t k ++ [(k, v)]

/-- Keys are pairwise distinct — true of any directory tree on disk, where
a relative path names at most one file. -/
abbrev nodupKeys {α : Type} (t : List (String × α)) : Prop :=
  (t.map Prod.fst).Nodup

/-- manager.cpp, filesAreSame: binary comparison of two files.  A file is
given as some content when the path exists as a regular file and none when
it is missing.  The C++ first checks fs exists on both paths, then
compares sizes, and only if the sizes match compares the byte streams. -/
def filesAreSame (a b : Option Content) : Bool :=
  match a, b with
  | some ca, some cb => if ca.length != cb.length then false else ca == cb
  | _, _ => false

/-- core.cpp, commitNode::createCommit, inheritance and overlay loops: copy
every regular file of the source tree into the destination tree, preserving
relative paths and overwriting any existing destination file. -/
def copyInto (dst : FileTree) : FileTree → FileTree
  | [] => dst
  | e :: rest => copyInto (ainsert dst e.1 e.2) rest

/-- core.cpp, commitNode::createCommit: materialize a commit snapshot.
Step 1 (inheritance) copies the parent snapshot into the fresh Data
directory when the parent id is non-empty and its Data directory exists
(both conditions folded into the Option); step 2 (overlay) copies every
regular file of the staging area on top, overwriting inherited files. -/
def createCommit (parentData : Option FileTree) (staging : FileTree) : FileTree :=
  copyInto (match parentData with
    | some pd => copyInto [] pd
    | none => []) staging

/-- Persistent record of one commit: commitInfo.txt fields 2–4 plus the
Data snapshot directory.  The parent field is none when the file stores the
NULL sentinel. -/
structure CommitRecord where
  parent : Option String
  msg : String
  time : String
  data : FileTree
deriving DecidableEq

/-- The commits directory: association list from commit identifier to its
on-disk record. -/
abbrev CommitStore := List (String × CommitRecord)

/-- The repository state: the HEAD file (none when it stores NULL or is
empty), the commits directory, the staging area, and the working tree (all
regular files of the working directory, relative paths). -/
structure RepoState where
  head : Option String
  commits : CommitStore
  staging : FileTree
  workingTree : FileTree
deriving DecidableEq

/-- The Data tree of the commit HEAD points at: none when HEAD is NULL or
the commit directory does not exist. -/
def headSnapshot (st : RepoState) : Option FileTree :=
  st.head.bind (fun h => (alookup st.commits h).map CommitRecord.data)

/-- Content stored for one path in the head snapshot, if any. -/
def headLookup (st : RepoState) (p : String) : Option Content :=
  (headSnapshot st).bind (fun hd => alookup hd p)

/-- core.cpp, commitNodeList::addOnTail: read HEAD as the parent id (NULL
meaning no parent), create the commit node — which materializes the
snapshot from the parent's Data and the staging area and writes
commitInfo.txt — and finally overwrite HEAD with the new id.  The fresh
random id and the timestamp are passed in explicitly. -/
def addOnTail (st : RepoState) (newID time msg : String) : RepoState :=
  { st with
    head := some newID,
    commits := ainsert st.commits newID
      (CommitRecord.mk st.head msg time (createCommit (headSnapshot st) st.staging)) }

/-- core.cpp, commitNodeList::revertCommit, reference resolution: the
literal token HEAD resolves through the HEAD file (failing on NULL or
empty); anything else is taken as a commit hash. -/
def resolveRef (st : RepoState) (hash : String) : Option String :=
  if hash = "HEAD" then st.head else some hash

/-- core.cpp, commitNodeList::revertCommit: resolve the reference, fail if
the target's commitInfo.txt does not exist, otherwise read the target's
message and append a new commit via addOnTail with the annotated message.
Returns the success flag together with the resulting state. -/
def revertCommit (st : RepoState) (newID time hash : String) : Bool × RepoState :=
  match resolveRef st hash with
  | none => (false, st)
  | some target =>
    match alookup st.commits target with
    | none => (false, st)
    | some r =>
      (true, addOnTail st newID time (r.msg ++ " (Revert of " ++ target ++ ")"))

/-- manager.cpp, gitClass::gitCommit: if no regular file is in the staging
area, report failure without touching anything; otherwise append the
commit and clear the staging area. -/
def gitCommit (st : RepoState) (newID time msg : String) : Bool × RepoState :=
  if st.staging.isEmpty then (false, st)
  else
    (true, { addOnTail st newID time msg with staging := [] })

/-- One entry printed by the history walk: the id, message and timestamp
lines of one commit. -/
structure LogEntry where
  id : String
  msg : String
  time : String
deriving DecidableEq

/-- core.cpp, commitNodeList::printCommitList: start at HEAD and follow
parent ids; the loop stops when the id is NULL or empty (none) and breaks
when commits/(id)/commitInfo.txt does not exist.  The C++ loop has no
termination fuel — on a parent cycle it runs forever — so the embedding
takes explicit fuel, which is irrelevant on any acyclic history long
enough. -/
def printCommitList (commits : CommitStore) : Nat → Option String → List LogEntry
  | _, none => []
  | 0, some _ => []
  | Nat.succ fuel, some cid =>
    match alookup commits cid with
    | none => []
    | some r => LogEntry.mk cid r.msg r.time :: printCommitList commits fuel r.parent

/-- Is the first character list a prefix of the second.  Models
std::string find(pat) == 0. -/
def charsStart : List Char → List Char → Bool
  | [], _ => true
  | _ :: _, [] => false
  | a :: as, b :: bs => a == b && charsStart as bs

/-- s starts with pat, on the underlying character lists. -/
def strStartsWith (s pat : String) : Bool := charsStart pat.data s.data

/-- Split a character list at slashes into path components. -/
def splitCompsAux : List Char → List Char → List String
  | [], acc => [String.mk acc.reverse]
  | c :: rest, acc =>
    if c == '/' then String.mk acc.reverse :: splitCompsAux rest []
    else splitCompsAux rest (c :: acc)

/-- Path components of a relative path string. -/
def splitPath (s : String) : List String := splitCompsAux s.data []

/-- Join path components back with slashes. -/
def joinPath : List String → String
  | [] => ""
  | [x] => x
  | x :: rest => x ++ "/" ++ joinPath rest

/-- Last path component, as fs path filename() on a relative path. -/
def filename (s : String) : String := (splitPath s).getLastD ""

/-- manager.cpp, gitClass::isIgnored: empty path, any path whose string
starts with .git or .vscode, or a path whose filename is the executable. -/
def isIgnored (s : String) : Bool :=
  s.data.isEmpty || strStartsWith s ".git" || strStartsWith s ".vscode" ||
  filename s == "mygit.exe" || filename s == "mygit"

/-- The non-empty proper prefixes of a component list (each ancestor
directory of a path, outermost first). -/
def prefixesNE : List String → List (List String)
  | [] => []
  | x :: rest => [x] :: (prefixesNE rest).map (fun l => x :: l)

/-- Every proper ancestor directory of a path, as relative path strings. -/
def properAncestors (s : String) : List String :=
  ((prefixesNE (splitPath s)).dropLast).map joinPath

/-- A working-tree entry is reached by the recursive directory walk iff
neither it nor any ancestor directory is ignored: the walk calls
disable_recursion_pending on every ignored directory, so files below an
ignored directory are never visited. -/
def visitable (s : String) : Bool :=
  !(isIgnored s) && (properAncestors s).all (fun q => !(isIgnored q))

/-- manager.cpp, gitClass::gitAdd (add all), body of the walk for one
visited regular file: when the file exists in the head snapshot with
identical content, drop any stale staged copy; otherwise copy it into the
staging area, overwriting. -/
def addAllStep (headData : Option FileTree) (stg : FileTree) (e : String × Content) :
    FileTree :=
  if (headData.bind (fun hd => alookup hd e.1)).isSome &&
      filesAreSame (some e.2) (headData.bind (fun hd => alookup hd e.1)) then
    aremove stg e.1
  else
    ainsert stg e.1 e.2

/-- manager.cpp, gitClass::gitAdd (add all): walk the working tree,
skipping ignored paths and everything below an ignored directory, and
apply the per-file staging logic. -/
def gitAddAll (st : RepoState) : RepoState :=
  { st with
    staging := (st.workingTree.filter (fun e => visitable e.1)).foldl
      (addAllStep (headSnapshot st)) st.staging }

/-- manager.cpp, gitClass::gitAdd(files, n), body for one named path: an
ignored path is skipped outright; a path that is not a regular file of the
working tree produces a warning (second component) and is skipped; a path
identical to the head snapshot's copy is skipped; otherwise the file is
copied into the staging area, overwriting. -/
def addNamedStep (wt : FileTree) (headData : Option FileTree)
    (acc : FileTree × List String) (f : String) : FileTree × List String :=
  if isIgnored f then acc
  else
    match alookup wt f with
    | none => (acc.1, acc.2 ++ [f])
    | some c =>
      if (headData.bind (fun hd => alookup hd f)).isSome &&
          filesAreSame (some c) (headData.bind (fun hd => alookup hd f)) then acc
      else (ainsert acc.1 f c, acc.2)

/-- manager.cpp, gitClass::gitAdd(files, n): process the explicit path
list in order; returns the resulting state and the list of warned-about
paths. -/
def gitAddNamed (st : RepoState) (files : List String) : RepoState × List String :=
  let r := files.foldl (addNamedStep st.workingTree (headSnapshot st)) (st.staging, [])
  ({ st with staging := r.1 }, r.2)

/-- The three path lists printed by status. -/
structure StatusResult where
  staged : List String
  modified : List String
  untracked : List String
deriving DecidableEq

/-- manager.cpp, gitClass::gitStatus, per-path test: the staged copy
exists. -/
def inStagingB (staging : FileTree) (p : String) : Bool :=
  (alookup staging p).isSome

/-- manager.cpp, gitClass::gitStatus, per-path test: the head snapshot is
available and holds the path. -/
def inCommitB (headData : Option FileTree) (p : String) : Bool :=
  match headData with
  | some hd => (alookup hd p).isSome
  | none => false

/-- manager.cpp, gitClass::gitStatus: staged is every regular file of the
staging area; then the working tree is walked (same ignore rules as add)
and each visited file is classified: in the head snapshot and not staged
and byte-different yields modified; in neither the snapshot nor staging
yields untracked; everything else is unreported. -/
def gitStatus (st : RepoState) : StatusResult :=
  StatusResult.mk
    (st.staging.map Prod.fst)
    (((st.workingTree.filter (fun e => visitable e.1)).filter (fun e =>
      inCommitB (headSnapshot st) e.1 && !(inStagingB st.staging e.1) &&
      !(filesAreSame (some e.2) (headLookup st e.1)))).map Prod.fst)
    (((st.workingTree.filter (fun e => visitable e.1)).filter (fun e =>
      !(inCommitB (headSnapshot st) e.1) && !(inStagingB st.staging e.1))).map Prod.fst)

/-! ### Lemmas about association-list primitives -/

theorem alookup_aremove {α : Type} (t : List (String × α)) (k q : String) :
    alookup (aremove t k) q = if k = q then none else alookup t q := by
  induction t with
  | nil => simp [aremove, alookup]
  | cons e t ih =>
    simp only [aremove]
    by_cases hek : e.1 = k
    · rw [if_pos hek, ih]
      by_cases hkq : k = q
      · simp [hkq]
      · have heq : ¬ (e.1 = q) := by rw [hek]; exact hkq
        simp [alookup, hkq, heq]
    · rw [if_neg hek]
      simp only [alookup]
      by_cases heq : e.1 = q
      · have hkq : ¬ (k = q) := fun h => hek (by rw [heq, h])
        simp [heq, hkq]
      · rw [if_neg heq, ih]
        simp [heq]

theorem alookup_append_none {α : Type} {t₁ : List (String × α)} {q : String}
    (t₂ : List (String × α)) (h : alookup t₁ q = none) :
    alookup (t₁ ++ t₂) q = alookup t₂ q := by
  induction t₁ with
  | nil => rfl
  | cons e t ih =>
    simp only [alookup] at h ⊢
    by_cases heq : e.1 = q
    · rw [if_pos heq] at h; exact absurd h (by simp)
    · rw [if_neg heq] at h ⊢
      exact ih h

theorem alookup_append_some {α : Type} {t₁ : List (String × α)} {q : String}
    {v : α} (t₂ : List (String × α)) (h : alookup t₁ q = some v) :
    alookup (t₁ ++ t₂) q = some v := by
  induction t₁ with
  | nil => simp [alookup] at h
  | cons e t ih =>
    simp only [alookup] at h ⊢
    by_cases heq : e.1 = q
    · rw [if_pos heq] at h ⊢; exact h
    · rw [if_neg heq] at h ⊢
      exact ih h

theorem alookup_ainsert {α : Type} (t : List (String × α)) (k : String) (v : α)
    (q : String) :
    alookup (ainsert t k v) q = if k = q then some v else alookup t q := by
  unfold ainsert
  by_cases hkq : k = q
  · have h : alookup (aremove t k) q = none := by
      rw [alookup_aremove, if_pos hkq]
    rw [alookup_append_none _ h]
    simp [alookup, hkq]
  · have h : alookup (aremove t k) q = alookup t q := by
      rw [alookup_aremove, if_neg hkq]
    cases ht : alookup t q with
    | none =>
      rw [alookup_append_none _ (h.trans ht)]
      simp [alookup, hkq, ht]
    | some w =>
      rw [alookup_append_some _ (h.trans ht)]
      simp [hkq]

theorem alookup_eq_none_iff {α : Type} (t : List (String × α)) (q : String) :
    alookup t q = none ↔ q ∉ t.map Prod.fst := by
  induction t with
  | nil => simp [alookup]
  | cons e t ih =>
    simp only [alookup, List.map_cons, List.mem_cons]
    by_cases heq : e.1 = q
    · simp [heq]
    · rw [if_neg heq, ih]
      constructor
      · intro h hc
        rcases hc with hc | hc
        · exact heq hc.symm
        · exact h hc
      · intro h hm
        exact h (Or.inr hm)

theorem mem_of_alookup_some {α : Type} {t : List (String × α)} {q : String}
    {v : α} (h : alookup t q = some v) : (q, v) ∈ t := by
  induction t with
  | nil => simp [alookup] at h
  | cons e t ih =>
    cases e with
    | mk a b =>
      simp only [alookup] at h
      by_cases heq : a = q
      · subst heq
        simp at h
        subst h
        exact List.mem_cons_self _ _
      · rw [if_neg heq] at h
        exact List.mem_cons_of_mem _ (ih h)

theorem alookup_some_of_mem {α : Type} {t : List (String × α)} {q : String}
    {v : α} (hnd : nodupKeys t) (h : (q, v) ∈ t) : alookup t q = some v := by
  induction t with
  | nil => simp at h
  | cons e t ih =>
    rw [nodupKeys, List.map_cons, List.nodup_cons] at hnd
    rcases List.mem_cons.mp h with h1 | h1
    · subst h1
      simp [alookup]
    · have heq : ¬ (e.1 = q) := by
        intro he
        exact hnd.1 (he ▸ (List.mem_map_of_mem Prod.fst h1))
      simp only [alookup, if_neg heq]
      exact ih hnd.2 h1

theorem alookup_some_iff_mem {α : Type} {t : List (String × α)} {q : String}
    {v : α} (hnd : nodupKeys t) : alookup t q = some v ↔ (q, v) ∈ t :=
  ⟨mem_of_alookup_some, alookup_some_of_mem hnd⟩

/-! ### Lemmas about snapshot materialization -/

theorem copyInto_of_not_mem {src : FileTree} {q : String}
    (h : alookup src q = none) :
    ∀ dst : FileTree, alookup (copyInto dst src) q = alookup dst q := by
  induction src with
  | nil => intro dst; rfl
  | cons e rest ih =>
    intro dst
    simp only [alookup] at h
    by_cases heq : e.1 = q
    · rw [if_pos heq] at h; exact absurd h (by simp)
    · rw [if_neg heq] at h
      rw [copyInto, ih h, alookup_ainsert, if_neg heq]

theorem copyInto_of_mem {src : FileTree} {q : String} {c : Content}
    (hnd : nodupKeys src) (h : alookup src q = some c) :
    ∀ dst : FileTree, alookup (copyInto dst src) q = some c := by
  induction src with
  | nil => simp [alookup] at h
  | cons e rest ih =>
    intro dst
    rw [nodupKeys, List.map_cons, List.nodup_cons] at hnd
    simp only [alookup] at h
    by_cases heq : e.1 = q
    · rw [if_pos heq] at h
      have hrest : alookup rest q = none := by
        rw [alookup_eq_none_iff]
        rw [heq] at hnd
        exact hnd.1
      rw [copyInto, copyInto_of_not_mem hrest, alookup_ainsert, if_pos heq, h]
    · rw [if_neg heq] at h
      rw [copyInto]
      exact ih hnd.2 h _

theorem filesAreSame_some_some (a b : Content) :
    filesAreSame (some a) (some b) = true ↔ a = b := by
  simp only [filesAreSame]
  constructor
  · intro h
    split at h
    · exact absurd h (by simp)
    · exact eq_of_beq h
  · intro h
    subst h
    simp

theorem filesAreSame_refl (a : Content) : filesAreSame (some a) (some a) = true := by
  simp [filesAreSame]

/-! ### Claim C9 -/

/-- C9: the File Identity Comparator returns true exactly when both paths
exist and their contents are byte-for-byte equal; a missing path yields
"not identical" (false, no error — the function is total); and when the
sizes differ the size check alone already forces the result false, no
matter the bytes. -/
theorem filesAreSame_spec (a b : Option Content) :
    (filesAreSame a b = true ↔ ∃ ca cb, a = some ca ∧ b = some cb ∧ ca = cb) ∧
    ((a = none ∨ b = none) → filesAreSame a b = false) ∧
    (∀ ca cb, a = some ca → b = some cb → ca.length ≠ cb.length →
      filesAreSame a b = false) := by
  refine ⟨?_, ?_, ?_⟩
  · cases a with
    | none => simp [filesAreSame]
    | some ca =>
      cases b with
      | none => simp [filesAreSame]
      | some cb =>
        rw [filesAreSame_some_some]
        constructor
        · intro h; exact ⟨ca, cb, rfl, rfl, h⟩
        · rintro ⟨ca', cb', h1, h2, h3⟩
          cases h1; cases h2; exact h3
  · intro h
    rcases h with h | h
    · subst h; cases b <;> rfl
    · subst h; cases a <;> rfl
  · intro ca cb ha hb hlen
    subst ha; subst hb
    simp [filesAreSame, hlen]

theorem filesAreSame_spec_witness : filesAreSame (some [1]) none = false :=
  (filesAreSame_spec (some [1]) none).2.1 (Or.inr rfl)

/-! ### Claim C2 -/

/-- C2: after createCommit builds the child snapshot from parent snapshot
pd and staging stg, every path of pd absent from stg keeps pd's content
byte-identically, and every path of stg carries stg's content (the overlay
wins).  The nodupKeys hypotheses state that each tree names a path at most
once, which is true of any on-disk directory tree. -/
theorem createCommit_inherit_and_overlay (pd stg : FileTree)
    (hpd : nodupKeys pd) (hstg : nodupKeys stg) :
    (∀ p c, alookup pd p = some c → alookup stg p = none →
      alookup (createCommit (some pd) stg) p = some c) ∧
    (∀ p c, alookup stg p = some c →
      alookup (createCommit (some pd) stg) p = some c) := by
  constructor
  · intro p c hp hs
    show alookup (copyInto (copyInto [] pd) stg) p = some c
    rw [copyInto_of_not_mem hs]
    exact copyInto_of_mem hpd hp []
  · intro p c hs
    show alookup (copyInto (copyInto [] pd) stg) p = some c
    exact copyInto_of_mem hstg hs _

theorem createCommit_inherit_and_overlay_witness :
    alookup (createCommit (some [("a.txt", [1]), ("b.txt", [2])]) [("b.txt", [3])])
      "a.txt" = some [1] ∧
    alookup (createCommit (some [("a.txt", [1]), ("b.txt", [2])]) [("b.txt", [3])])
      "b.txt" = some [3] := by
  constructor
  · exact (createCommit_inherit_and_overlay _ _ (by decide) (by decide)).1
      "a.txt" [1] (by decide) (by decide)
  · exact (createCommit_inherit_and_overlay _ _ (by decide) (by decide)).2
      "b.txt" [3] (by decide)

/-! ### Claim C4 -/

/-- C4: committing with an empty staging area returns failure and leaves
the whole repository state — commit store, head pointer, staging, working
tree — unchanged. -/
theorem gitCommit_empty_staging (st : RepoState) (newID time msg : String)
    (h : st.staging = []) :
    gitCommit st newID time msg = (false, st) := by
  unfold gitCommit
  rw [h]
  rfl

def stEmptyStaging : RepoState := RepoState.mk none [] [] [("a.txt", [49])]

theorem gitCommit_empty_staging_witness :
    gitCommit stEmptyStaging "N1" "t1" "msg" = (false, stEmptyStaging) :=
  gitCommit_empty_staging stEmptyStaging "N1" "t1" "msg" rfl

/-! ### Claim C5 -/

/-- C5: committing with a non-empty staging area returns success, leaves
the staging area empty, makes the head point at the freshly created
commit, and stores that commit with the old head as parent and the
materialized snapshot as Data. -/
theorem gitCommit_success (st : RepoState) (newID time msg : String)
    (h : st.staging ≠ []) :
    (gitCommit st newID time msg).1 = true ∧
    (gitCommit st newID time msg).2.staging = [] ∧
    (gitCommit st newID time msg).2.head = some newID ∧
    alookup (gitCommit st newID time msg).2.commits newID =
      some (CommitRecord.mk st.head msg time
        (createCommit (headSnapshot st) st.staging)) := by
  obtain ⟨e, rest, hs⟩ := List.exists_cons_of_ne_nil h
  have hne : st.staging.isEmpty = false := by rw [hs]; rfl
  unfold gitCommit
  rw [if_neg (by rw [hne]; exact Bool.false_ne_true)]
  refine ⟨rfl, rfl, rfl, ?_⟩
  show alookup (ainsert st.commits newID
    (CommitRecord.mk st.head msg time
      (createCommit (headSnapshot st) st.staging))) newID = _
  rw [alookup_ainsert, if_pos rfl]

def stOneStaged : RepoState := RepoState.mk none [] [("a.txt", [49])] [("a.txt", [49])]

theorem gitCommit_success_witness :
    (gitCommit stOneStaged "N1" "t1" "first").1 = true ∧
    (gitCommit stOneStaged "N1" "t1" "first").2.staging = [] ∧
    (gitCommit stOneStaged "N1" "t1" "first").2.head = some "N1" ∧
    alookup (gitCommit stOneStaged "N1" "t1" "first").2.commits "N1" =
      some (CommitRecord.mk stOneStaged.head "first" "t1"
        (createCommit (headSnapshot stOneStaged) stOneStaged.staging)) :=
  gitCommit_success stOneStaged "N1" "t1" "first" (by decide)

/-! ### Claim C8 -/

/-- C8: when the reference does not resolve to a stored commit — the HEAD
token while the HEAD slot is NULL or empty, a literal hash with no commit
record, or HEAD pointing at a missing record — revert returns failure and
the state (head pointer, staging area, commit store, working tree) is
returned unchanged. -/
theorem revertCommit_unresolved (st : RepoState) (newID time hash : String)
    (h : (resolveRef st hash).bind (alookup st.commits) = none) :
    revertCommit st newID time hash = (false, st) := by
  unfold revertCommit
  cases hr : resolveRef st hash with
  | none => rfl
  | some target =>
    rw [hr] at h
    have h2 : alookup st.commits target = none := h
    show (match alookup st.commits target with
      | none => (false, st)
      | some r =>
        (true, addOnTail st newID time (r.msg ++ " (Revert of " ++ target ++ ")")))
      = (false, st)
    rw [h2]

def stNoCommits : RepoState := RepoState.mk none [] [] []

theorem revertCommit_unresolved_witness :
    revertCommit stNoCommits "N1" "t1" "deadbeef" = (false, stNoCommits) :=
  revertCommit_unresolved stNoCommits "N1" "t1" "deadbeef" (by decide)

/-! ### Claim C1 -/

def revTargetRec : CommitRecord := CommitRecord.mk none "first" "t1" [("a.txt", [49])]

def revHeadRec : CommitRecord := CommitRecord.mk (some "A") "second" "t2" [("a.txt", [50])]

def revState : RepoState :=
  RepoState.mk (some "B") [("A", revTargetRec), ("B", revHeadRec)] [] [("a.txt", [50])]

/-- C1 fails on the code: with commits A (a.txt holding byte 49) then B
(a.txt holding byte 50), head B and an empty staging area, revert of A
succeeds but the new commit C inherits B's snapshot and overlays the
(empty) staging area, so C's a.txt holds byte 50, not target A's byte 49.
revertCommit only reuses the target's message; it never copies the
target's Data, contradicting its own comment that it duplicates an
existing commit. -/
theorem revertCommit_does_not_restore_target :
    (revertCommit revState "C" "t3" "A").1 = true ∧
    (revertCommit revState "C" "t3" "A").2.head = some "C" ∧
    (alookup (revertCommit revState "C" "t3" "A").2.commits "C").map CommitRecord.data
      = some [("a.txt", [50])] ∧
    alookup revTargetRec.data "a.txt" = some [49] ∧
    ((alookup (revertCommit revState "C" "t3" "A").2.commits "C").bind
        (fun r => alookup r.data "a.txt"))
      ≠ alookup revTargetRec.data "a.txt" := by decide

/-! ### Claim C6 -/

def staleState : RepoState := RepoState.mk (some "H1")
  [("H1", CommitRecord.mk none "first" "t1" [("a.txt", [49])])]
  [("a.txt", [48])]
  [("a.txt", [49])]

/-- C6 fails on the code: with a.txt staged with stale content (byte 48)
while the working-tree copy (byte 49) is identical to the head snapshot's
copy, the named add of a.txt leaves the stale staged copy in place — the
named-add path only skips an up-to-date file, it never removes the staged
copy the way the add-all path does. -/
theorem gitAddNamed_stale_persists :
    alookup staleState.workingTree "a.txt" = some [49] ∧
    headLookup staleState "a.txt" = some [49] ∧
    alookup staleState.staging "a.txt" = some [48] ∧
    alookup (gitAddNamed staleState ["a.txt"]).1.staging "a.txt" = some [48] := by
  decide

theorem addNamed_fold_identical (wt : FileTree) (headData : Option FileTree)
    (f : String) (c : Content)
    (hwt : alookup wt f = some c)
    (hhd : headData.bind (fun t => alookup t f) = some c) :
    ∀ (files : List String) (acc : FileTree × List String),
      alookup (files.foldl (addNamedStep wt headData) acc).1 f = alookup acc.1 f := by
  intro files
  induction files with
  | nil => intro acc; rfl
  | cons g rest ih =>
    intro acc
    rw [List.foldl_cons, ih]
    unfold addNamedStep
    by_cases hig : isIgnored g = true
    · rw [if_pos hig]
    · rw [if_neg hig]
      by_cases hgf : g = f
      · subst hgf
        rw [hwt]
        show alookup (if (headData.bind (fun t => alookup t g)).isSome &&
            filesAreSame (some c) (headData.bind (fun t => alookup t g)) then acc
          else (ainsert acc.1 g c, acc.2)).1 g = alookup acc.1 g
        rw [hhd]
        simp [filesAreSame_refl]
      · cases hw : alookup wt g with
        | none => rfl
        | some cg =>
          show alookup (if (headData.bind (fun t => alookup t g)).isSome &&
              filesAreSame (some cg) (headData.bind (fun t => alookup t g)) then acc
            else (ainsert acc.1 g cg, acc.2)).1 f = alookup acc.1 f
          split
          · rfl
          · show alookup (ainsert acc.1 g cg) f = alookup acc.1 f
            rw [alookup_ainsert, if_neg hgf]

theorem addAll_fold_keyfree (headData : Option FileTree) (f : String) :
    ∀ (l : List (String × Content)) (stg : FileTree),
      (∀ x ∈ l, x.1 ≠ f) →
      alookup (l.foldl (addAllStep headData) stg) f = alookup stg f := by
  intro l
  induction l with
  | nil => intro stg _; rfl
  | cons e rest ih =>
    intro stg hne
    rw [List.foldl_cons, ih _ (fun x hx => hne x (List.mem_cons_of_mem _ hx))]
    have he : e.1 ≠ f := hne e (List.mem_cons_self _ _)
    unfold addAllStep
    split
    · rw [alookup_aremove, if_neg he]
    · rw [alookup_ainsert, if_neg he]

theorem addAll_fold_prunes (headData : Option FileTree) (f : String) (c : Content)
    (hhd : headData.bind (fun t => alookup t f) = some c) :
    ∀ l : List (String × Content), nodupKeys l → (f, c) ∈ l →
      ∀ stg : FileTree, alookup (l.foldl (addAllStep headData) stg) f = none := by
  intro l
  induction l with
  | nil => intro _ hm stg; simp at hm
  | cons e rest ih =>
    intro hnd hm stg
    rw [nodupKeys, List.map_cons, List.nodup_cons] at hnd
    rw [List.foldl_cons]
    rcases List.mem_cons.mp hm with hm1 | hm1
    · have hef : e.1 = f := by rw [← hm1]
      have hec : e.2 = c := by rw [← hm1]
      have hrest : ∀ x ∈ rest, x.1 ≠ f := by
        intro x hx hc
        apply hnd.1
        have hx1 : x.1 ∈ rest.map Prod.fst := List.mem_map_of_mem Prod.fst hx
        rw [hc, ← hef] at hx1
        exact hx1
      rw [addAll_fold_keyfree headData f rest _ hrest]
      have hcom : headData.bind (fun t => alookup t e.1) = some c := by
        rw [hef]; exact hhd
      have hcond : ((headData.bind (fun t => alookup t e.1)).isSome &&
          filesAreSame (some e.2) (headData.bind (fun t => alookup t e.1))) = true := by
        rw [hcom, hec, filesAreSame_refl]
        rfl
      unfold addAllStep
      rw [if_pos hcond, alookup_aremove, if_pos hef]
    · exact ih hnd.2 hm1 _

/-- C6 amended: for add-named, a file whose working-tree content is
byte-identical to the head snapshot's copy is skipped without being
copied, and its staging-area entry is left exactly as it was before the
operation — in particular a stale staged copy of it persists.  Pruning of
such a file from staging is performed only by the add-all walk, which
removes the file from staging when it visits it. -/
theorem gitAddNamed_skips_identical (st : RepoState) (files : List String)
    (f : String) (c : Content)
    (hwt : nodupKeys st.workingTree)
    (hf : alookup st.workingTree f = some c)
    (hhd : headLookup st f = some c) :
    alookup (gitAddNamed st files).1.staging f = alookup st.staging f ∧
    (visitable f = true → alookup (gitAddAll st).staging f = none) := by
  constructor
  · show alookup
      (files.foldl (addNamedStep st.workingTree (headSnapshot st)) (st.staging, [])).1 f
      = alookup st.staging f
    exact addNamed_fold_identical st.workingTree (headSnapshot st) f c hf hhd files
      (st.staging, [])
  · intro hv
    show alookup ((st.workingTree.filter (fun e => visitable e.1)).foldl
      (addAllStep (headSnapshot st)) st.staging) f = none
    apply addAll_fold_prunes (headSnapshot st) f c hhd
    · exact List.Nodup.sublist ((List.filter_sublist st.workingTree).map Prod.fst) hwt
    · exact List.mem_filter.mpr ⟨mem_of_alookup_some hf, hv⟩

theorem gitAddNamed_skips_identical_witness :
    alookup (gitAddNamed staleState ["a.txt"]).1.staging "a.txt"
      = alookup staleState.staging "a.txt" ∧
    alookup (gitAddAll staleState).staging "a.txt" = none :=
  ⟨(gitAddNamed_skips_identical staleState ["a.txt"] "a.txt" [49]
      (by decide) (by decide) (by decide)).1,
   (gitAddNamed_skips_identical staleState ["a.txt"] "a.txt" [49]
      (by decide) (by decide) (by decide)).2 (by decide)⟩

/-! ### Claim C7 -/

theorem printCommitList_succ (commits : CommitStore) (fuel : Nat) (cid : String) :
    printCommitList commits (Nat.succ fuel) (some cid)
      = match alookup commits cid with
        | none => []
        | some r => LogEntry.mk cid r.msg r.time :: printCommitList commits fuel r.parent :=
  rfl

def corruptStore : CommitStore := [("A", CommitRecord.mk (some "B") "m" "t" [])]

def cleanStore : CommitStore := [("A", CommitRecord.mk none "m" "t" [])]

/-- C7 fails on the code: in a history whose only commit A names a parent
B that has no commit record, the log walk breaks out of its loop without
printing or signalling anything — its output is exactly the output it
produces on a clean history where A is a root commit.  The corruption is
therefore not surfaced to the caller; the walk silently truncates. -/
theorem printCommitList_silent_truncation :
    alookup corruptStore "A" = some (CommitRecord.mk (some "B") "m" "t" []) ∧
    alookup corruptStore "B" = none ∧
    printCommitList corruptStore 5 (some "A")
      = printCommitList cleanStore 5 (some "A") := by
  decide

theorem printCommitList_none_rec (commits : CommitStore) (pid : String)
    (h : alookup commits pid = none) :
    ∀ fuel : Nat, printCommitList commits fuel (some pid) = [] := by
  intro fuel
  cases fuel with
  | zero => rfl
  | succ n => rw [printCommitList_succ, h]

/-- A resolvable chain ending at a dangling parent: each listed pair is a
stored commit record, consecutive parent identifiers link them, and the
last one's parent identifier resolves to no commit record.  This is the
head-reachable resolvable prefix of a corrupt history. -/
inductive ResolvableChain (commits : CommitStore) :
    String → List (String × CommitRecord) → Prop where
  | last (cid : String) (r : CommitRecord) (pid : String)
      (h1 : alookup commits cid = some r) (h2 : r.parent = some pid)
      (h3 : alookup commits pid = none) :
      ResolvableChain commits cid [(cid, r)]
  | step (cid : String) (r : CommitRecord) (nid : String)
      (rest : List (String × CommitRecord))
      (h1 : alookup commits cid = some r) (h2 : r.parent = some nid)
      (h3 : ResolvableChain commits nid rest) :
      ResolvableChain commits cid ((cid, r) :: rest)

/-- C7 amended: when the head-reachable chain contains a parent identifier
with no commit record — at any depth — the traversal yields exactly the
entries of the resolvable prefix, up to and including the last resolvable
commit, and then stops silently with no error signal: silent truncation
rather than a surfaced corruption condition.  The result is the same for
every fuel value beyond the chain length, so it is the dangling parent,
not fuel exhaustion, that ends the walk. -/
theorem printCommitList_stops_at_dangling (commits : CommitStore)
    (cid : String) (chain : List (String × CommitRecord))
    (hc : ResolvableChain commits cid chain) :
    ∀ fuel : Nat,
      printCommitList commits (fuel + chain.length) (some cid)
        = chain.map (fun e => LogEntry.mk e.1 e.2.msg e.2.time) := by
  induction hc with
  | last cid r pid h1 h2 h3 =>
    intro fuel
    show printCommitList commits (Nat.succ fuel) (some cid)
      = [LogEntry.mk cid r.msg r.time]
    rw [printCommitList_succ, h1]
    show LogEntry.mk cid r.msg r.time :: printCommitList commits fuel r.parent = _
    rw [h2, printCommitList_none_rec commits pid h3 fuel]
  | step cid r nid rest h1 h2 h3 ih =>
    intro fuel
    show printCommitList commits (Nat.succ (fuel + rest.length)) (some cid)
      = LogEntry.mk cid r.msg r.time
          :: rest.map (fun e => LogEntry.mk e.1 e.2.msg e.2.time)
    rw [printCommitList_succ, h1]
    show LogEntry.mk cid r.msg r.time
      :: printCommitList commits (fuel + rest.length) r.parent = _
    rw [h2, ih fuel]

def corruptStore2 : CommitStore :=
  [("A", CommitRecord.mk (some "B") "m2" "t2" []),
   ("B", CommitRecord.mk (some "C") "m1" "t1" [])]

theorem printCommitList_stops_at_dangling_witness :
    printCommitList corruptStore2 5 (some "A")
      = [LogEntry.mk "A" "m2" "t2", LogEntry.mk "B" "m1" "t1"] :=
  printCommitList_stops_at_dangling corruptStore2 "A"
    [("A", CommitRecord.mk (some "B") "m2" "t2" []),
     ("B", CommitRecord.mk (some "C") "m1" "t1" [])]
    (ResolvableChain.step "A" (CommitRecord.mk (some "B") "m2" "t2" []) "B"
      [("B", CommitRecord.mk (some "C") "m1" "t1" [])] (by decide) rfl
      (ResolvableChain.last "B" (CommitRecord.mk (some "C") "m1" "t1" []) "C"
        (by decide) rfl (by decide)))
    3

/-! ### Claim C10 -/

/-- The reserved paths of the claim: anything under the repository
metadata directory, anything under the editor-config directory, or a path
whose filename is the executable. -/
def reservedPath (s : String) : Bool :=
  s == ".git" || strStartsWith s ".git/" ||
  s == ".vscode" || strStartsWith s ".vscode/" ||
  filename s == "mygit" || filename s == "mygit.exe"

theorem charsStart_trans : ∀ (a b c : List Char),
    charsStart a b = true → charsStart b c = true → charsStart a c = true := by
  intro a
  induction a with
  | nil => intro b c _ _; rfl
  | cons x as ih =>
    intro b c hab hbc
    cases b with
    | nil => simp [charsStart] at hab
    | cons y bs =>
      cases c with
      | nil => simp [charsStart] at hbc
      | cons z cs =>
        simp only [charsStart, Bool.and_eq_true, beq_iff_eq] at hab hbc ⊢
        exact ⟨hab.1.trans hbc.1, ih bs cs hab.2 hbc.2⟩

theorem isIgnored_of_reserved {s : String} (h : reservedPath s = true) :
    isIgnored s = true := by
  unfold reservedPath at h
  simp only [Bool.or_eq_true, beq_iff_eq] at h
  rcases h with ((((h | h) | h) | h) | h) | h
  · subst h; decide
  · have h2 : strStartsWith s ".git" = true :=
      charsStart_trans _ _ _ (by decide) h
    simp [isIgnored, h2]
  · subst h; decide
  · have h2 : strStartsWith s ".vscode" = true :=
      charsStart_trans _ _ _ (by decide) h
    simp [isIgnored, h2]
  · simp [isIgnored, h]
  · simp [isIgnored, h]

theorem visitable_not_ignored {s : String} (h : visitable s = true) :
    isIgnored s = false := by
  unfold visitable at h
  rw [Bool.and_eq_true] at h
  simpa using h.1

theorem addAll_fold_keeps_absent (headData : Option FileTree) (p : String)
    (hp : isIgnored p = true) :
    ∀ (l : List (String × Content)) (stg : FileTree),
      (∀ e ∈ l, visitable e.1 = true) → alookup stg p = none →
      alookup (l.foldl (addAllStep headData) stg) p = none := by
  intro l
  induction l with
  | nil => intro stg _ h; exact h
  | cons e rest ih =>
    intro stg hvis h
    rw [List.foldl_cons]
    apply ih
    · intro x hx; exact hvis x (List.mem_cons_of_mem _ hx)
    · have hv := hvis e (List.mem_cons_self _ _)
      have hne : e.1 ≠ p := by
        intro hc
        have hig := visitable_not_ignored hv
        rw [hc, hp] at hig
        exact absurd hig (by decide)
      unfold addAllStep
      split
      · rw [alookup_aremove, if_neg hne]; exact h
      · rw [alookup_ainsert, if_neg hne]; exact h

theorem addNamed_fold_keeps_reserved (wt : FileTree) (headData : Option FileTree)
    (p : String) (hp : isIgnored p = true) :
    ∀ (files : List String) (acc : FileTree × List String),
      alookup acc.1 p = none → p ∉ acc.2 →
      alookup (files.foldl (addNamedStep wt headData) acc).1 p = none ∧
      p ∉ (files.foldl (addNamedStep wt headData) acc).2 := by
  intro files
  induction files with
  | nil => intro acc h1 h2; exact ⟨h1, h2⟩
  | cons g rest ih =>
    intro acc h1 h2
    rw [List.foldl_cons]
    have hstep : alookup (addNamedStep wt headData acc g).1 p = none ∧
        p ∉ (addNamedStep wt headData acc g).2 := by
      unfold addNamedStep
      by_cases hig : isIgnored g = true
      · rw [if_pos hig]; exact ⟨h1, h2⟩
      · have hgp : g ≠ p := by
          intro hc; rw [hc, hp] at hig; exact hig rfl
        rw [if_neg hig]
        cases hw : alookup wt g with
        | none =>
          refine ⟨h1, ?_⟩
          intro hc
          rcases List.mem_append.mp hc with hc | hc
          · exact h2 hc
          · exact hgp (List.mem_singleton.mp hc).symm
        | some cg =>
          show alookup (if (headData.bind (fun t => alookup t g)).isSome &&
              filesAreSame (some cg) (headData.bind (fun t => alookup t g)) then acc
            else (ainsert acc.1 g cg, acc.2)).1 p = none ∧
            p ∉ (if (headData.bind (fun t => alookup t g)).isSome &&
              filesAreSame (some cg) (headData.bind (fun t => alookup t g)) then acc
            else (ainsert acc.1 g cg, acc.2)).2
          split
          · exact ⟨h1, h2⟩
          · refine ⟨?_, h2⟩
            show alookup (ainsert acc.1 g cg) p = none
            rw [alookup_ainsert, if_neg hgp]
            exact h1
    exact ih _ hstep.1 hstep.2

/-- C10: provided the staging area holds no reserved path (true from init
onward, since only add writes into staging), it still holds none after an
add-all or an add-named of any path list: the walk prunes ignored
directories and both per-file paths skip ignored relative paths.
Moreover an ignored path given to add-named is skipped silently: its
processing step returns the accumulator unchanged — no copy and no
missing-file warning — so a reserved path never appears in the warning
list either. -/
theorem add_respects_reserved (st : RepoState) (files : List String) (p : String)
    (hres : reservedPath p = true) (hpre : alookup st.staging p = none) :
    alookup (gitAddAll st).staging p = none ∧
    alookup (gitAddNamed st files).1.staging p = none ∧
    p ∉ (gitAddNamed st files).2 ∧
    (∀ acc : FileTree × List String,
      addNamedStep st.workingTree (headSnapshot st) acc p = acc) := by
  have hig : isIgnored p = true := isIgnored_of_reserved hres
  have hnamed := addNamed_fold_keeps_reserved st.workingTree (headSnapshot st) p hig
    files (st.staging, []) hpre (by simp)
  refine ⟨?_, hnamed.1, hnamed.2, ?_⟩
  · show alookup ((st.workingTree.filter (fun e => visitable e.1)).foldl
      (addAllStep (headSnapshot st)) st.staging) p = none
    apply addAll_fold_keeps_absent _ _ hig
    · intro e he; exact (List.mem_filter.mp he).2
    · exact hpre
  · intro acc
    unfold addNamedStep
    rw [if_pos hig]

/-! ### Claim C3 -/

theorem mem_map_fst_iff_alookup (t : FileTree) (p : String) :
    p ∈ t.map Prod.fst ↔ alookup t p ≠ none := by
  constructor
  · intro h hn
    exact (alookup_eq_none_iff t p).mp hn h
  · intro h
    by_contra hc
    exact h ((alookup_eq_none_iff t p).mpr hc)

theorem mem_map_fst_filter (l : List (String × Content))
    (f : String × Content → Bool) (p : String) :
    p ∈ (l.filter f).map Prod.fst ↔ ∃ c, (p, c) ∈ l ∧ f (p, c) = true := by
  constructor
  · intro h
    obtain ⟨e, he, hfst⟩ := List.mem_map.mp h
    obtain ⟨hmem, hf⟩ := List.mem_filter.mp he
    cases e with
    | mk a b =>
      cases hfst
      exact ⟨b, hmem, hf⟩
  · rintro ⟨c, hmem, hf⟩
    exact List.mem_map.mpr ⟨(p, c), List.mem_filter.mpr ⟨hmem, hf⟩, rfl⟩

theorem mem_map_fst_filter2 (l : List (String × Content))
    (f g : String × Content → Bool) (p : String) :
    p ∈ ((l.filter f).filter g).map Prod.fst ↔
      ∃ c, (p, c) ∈ l ∧ f (p, c) = true ∧ g (p, c) = true := by
  rw [mem_map_fst_filter]
  constructor
  · rintro ⟨c, hm, hg⟩
    obtain ⟨hm2, hf⟩ := List.mem_filter.mp hm
    exact ⟨c, hm2, hf, hg⟩
  · rintro ⟨c, hm, hf, hg⟩
    exact ⟨c, List.mem_filter.mpr ⟨hm, hf⟩, hg⟩

theorem inCommitB_headLookup (st : RepoState) (p : String) :
    inCommitB (headSnapshot st) p = (headLookup st p).isSome := by
  unfold inCommitB headLookup
  cases headSnapshot st <;> rfl

theorem notB_isSome {α : Type} (o : Option α) : (!(o.isSome)) = true ↔ o = none := by
  cases o <;> simp

theorem modifiedCond_iff (st : RepoState) (p : String) (c : Content) :
    (inCommitB (headSnapshot st) p && !(inStagingB st.staging p) &&
      !(filesAreSame (some c) (headLookup st p))) = true ↔
    ((∃ ch, headLookup st p = some ch ∧ c ≠ ch) ∧ alookup st.staging p = none) := by
  rw [inCommitB_headLookup]
  constructor
  · intro h
    rw [Bool.and_eq_true, Bool.and_eq_true] at h
    obtain ⟨⟨h1, h2⟩, h3⟩ := h
    obtain ⟨ch, hch⟩ := Option.isSome_iff_exists.mp h1
    refine ⟨⟨ch, hch, ?_⟩, ?_⟩
    · intro hceq
      rw [hch, hceq, filesAreSame_refl] at h3
      exact absurd h3 (by decide)
    · exact (notB_isSome (alookup st.staging p)).mp h2
  · rintro ⟨⟨ch, hch, hne⟩, hs⟩
    rw [Bool.and_eq_true, Bool.and_eq_true]
    refine ⟨⟨?_, ?_⟩, ?_⟩
    · rw [hch]; rfl
    · exact (notB_isSome (alookup st.staging p)).mpr hs
    · rw [hch]
      have hfs : filesAreSame (some c) (some ch) = false := by
        cases hf : filesAreSame (some c) (some ch)
        · rfl
        · exact absurd ((filesAreSame_some_some c ch).mp hf) hne
      rw [hfs]; rfl

theorem untrackedCond_iff (st : RepoState) (p : String) :
    (!(inCommitB (headSnapshot st) p) && !(inStagingB st.staging p)) = true ↔
    (headLookup st p = none ∧ alookup st.staging p = none) := by
  rw [inCommitB_headLookup, Bool.and_eq_true]
  constructor
  · rintro ⟨h1, h2⟩
    exact ⟨(notB_isSome (headLookup st p)).mp h1,
      (notB_isSome (alookup st.staging p)).mp h2⟩
  · rintro ⟨h1, h2⟩
    exact ⟨(notB_isSome (headLookup st p)).mpr h1,
      (notB_isSome (alookup st.staging p)).mpr h2⟩

/-- C3: the classifier's three output lists.  staged is exactly the set of
regular files of the staging area; modified is exactly the visited
working-tree paths that are in the head snapshot, not in staging, and
byte-different from the snapshot copy; untracked is exactly the visited
working-tree paths in neither the head snapshot nor staging.  The three
are pairwise disjoint, and an unchanged path — identical to the head
snapshot copy and not staged — appears in none of them.  The nodupKeys
hypothesis says the working tree names a path at most once, true of a real
filesystem walk. -/
theorem gitStatus_partition (st : RepoState) (hwt : nodupKeys st.workingTree) :
    (∀ p, p ∈ (gitStatus st).staged ↔ alookup st.staging p ≠ none) ∧
    (∀ p, p ∈ (gitStatus st).modified ↔ ∃ cw ch,
      alookup st.workingTree p = some cw ∧ visitable p = true ∧
      headLookup st p = some ch ∧ alookup st.staging p = none ∧ cw ≠ ch) ∧
    (∀ p, p ∈ (gitStatus st).untracked ↔ ∃ cw,
      alookup st.workingTree p = some cw ∧ visitable p = true ∧
      headLookup st p = none ∧ alookup st.staging p = none) ∧
    (∀ p, ¬ (p ∈ (gitStatus st).staged ∧ p ∈ (gitStatus st).modified)) ∧
    (∀ p, ¬ (p ∈ (gitStatus st).staged ∧ p ∈ (gitStatus st).untracked)) ∧
    (∀ p, ¬ (p ∈ (gitStatus st).modified ∧ p ∈ (gitStatus st).untracked)) ∧
    (∀ p c, visitable p = true → alookup st.workingTree p = some c →
      headLookup st p = some c → alookup st.staging p = none →
      p ∉ (gitStatus st).staged ∧ p ∉ (gitStatus st).modified ∧
      p ∉ (gitStatus st).untracked) := by
  have hstaged : ∀ p, p ∈ (gitStatus st).staged ↔ alookup st.staging p ≠ none :=
    fun p => mem_map_fst_iff_alookup st.staging p
  have hmod : ∀ p, p ∈ (gitStatus st).modified ↔ ∃ cw ch,
      alookup st.workingTree p = some cw ∧ visitable p = true ∧
      headLookup st p = some ch ∧ alookup st.staging p = none ∧ cw ≠ ch := by
    intro p
    show p ∈ ((st.workingTree.filter (fun e => visitable e.1)).filter (fun e =>
      inCommitB (headSnapshot st) e.1 && !(inStagingB st.staging e.1) &&
      !(filesAreSame (some e.2) (headLookup st e.1)))).map Prod.fst ↔ _
    rw [mem_map_fst_filter2]
    constructor
    · rintro ⟨c, hm, hv, hcond⟩
      have hl : alookup st.workingTree p = some c := alookup_some_of_mem hwt hm
      obtain ⟨⟨ch, hch, hne⟩, hs⟩ := (modifiedCond_iff st p c).mp hcond
      exact ⟨c, ch, hl, hv, hch, hs, hne⟩
    · rintro ⟨cw, ch, hl, hv, hch, hs, hne⟩
      exact ⟨cw, mem_of_alookup_some hl, hv,
        (modifiedCond_iff st p cw).mpr ⟨⟨ch, hch, hne⟩, hs⟩⟩
  have huntr : ∀ p, p ∈ (gitStatus st).untracked ↔ ∃ cw,
      alookup st.workingTree p = some cw ∧ visitable p = true ∧
      headLookup st p = none ∧ alookup st.staging p = none := by
    intro p
    show p ∈ ((st.workingTree.filter (fun e => visitable e.1)).filter (fun e =>
      !(inCommitB (headSnapshot st) e.1) && !(inStagingB st.staging e.1))).map
        Prod.fst ↔ _
    rw [mem_map_fst_filter2]
    constructor
    · rintro ⟨c, hm, hv, hcond⟩
      have hl : alookup st.workingTree p = some c := alookup_some_of_mem hwt hm
      obtain ⟨hh, hs⟩ := (untrackedCond_iff st p).mp hcond
      exact ⟨c, hl, hv, hh, hs⟩
    · rintro ⟨cw, hl, hv, hh, hs⟩
      exact ⟨cw, mem_of_alookup_some hl, hv,
        (untrackedCond_iff st p).mpr ⟨hh, hs⟩⟩
  refine ⟨hstaged, hmod, huntr, ?_, ?_, ?_, ?_⟩
  · rintro p ⟨h1, h2⟩
    obtain ⟨cw, ch, _, _, _, hs, _⟩ := (hmod p).mp h2
    exact (hstaged p).mp h1 hs
  · rintro p ⟨h1, h2⟩
    obtain ⟨cw, _, _, _, hs⟩ := (huntr p).mp h2
    exact (hstaged p).mp h1 hs
  · rintro p ⟨h1, h2⟩
    obtain ⟨cw, ch, _, _, hch, _, _⟩ := (hmod p).mp h1
    obtain ⟨cw', _, _, hh, _⟩ := (huntr p).mp h2
    rw [hch] at hh
    exact absurd hh (by simp)
  · intro p c hv hl hh hs
    refine ⟨?_, ?_, ?_⟩
    · intro hmem
      exact (hstaged p).mp hmem hs
    · intro hmem
      obtain ⟨cw, ch, hl', _, hch', _, hne⟩ := (hmod p).mp hmem
      rw [hl] at hl'
      rw [hh] at hch'
      exact hne ((Option.some.inj hl').symm.trans (Option.some.inj hch'))
    · intro hmem
      obtain ⟨cw, _, _, hh', _⟩ := (huntr p).mp hmem
      rw [hh] at hh'
      exact absurd hh' (by simp)

def statusState : RepoState := RepoState.mk (some "H1")
  [("H1", CommitRecord.mk none "c1" "t1" [("a.txt", [49]), ("b.txt", [50])])]
  [("s.txt", [51])]
  [("a.txt", [49]), ("b.txt", [52]), ("s.txt", [51]), ("u.txt", [53])]

theorem gitStatus_partition_witness :
    "s.txt" ∈ (gitStatus statusState).staged ∧
    "b.txt" ∈ (gitStatus statusState).modified ∧
    "u.txt" ∈ (gitStatus statusState).untracked :=
  ⟨((gitStatus_partition statusState (by decide)).1 "s.txt").mpr (by decide),
   ((gitStatus_partition statusState (by decide)).2.1 "b.txt").mpr
     ⟨[52], [50], by decide, by decide, by decide, by decide, by decide⟩,
   ((gitStatus_partition statusState (by decide)).2.2.1 "u.txt").mpr
     ⟨[53], by decide, by decide, by decide, by decide⟩⟩

def reservedState : RepoState := RepoState.mk none [] []
  [(".git/HEAD", [78]), ("a.txt", [49]), (".vscode/settings.json", [123]), ("mygit", [0])]

theorem add_respects_reserved_witness :
    alookup (gitAddAll reservedState).staging ".git/HEAD" = none ∧
    alookup (gitAddNamed reservedState [".git/HEAD", "a.txt"]).1.staging ".git/HEAD" = none ∧
    ".git/HEAD" ∉ (gitAddNamed reservedState [".git/HEAD", "a.txt"]).2 :=
  ⟨(add_respects_reserved reservedState [".git/HEAD", "a.txt"] ".git/HEAD"
      (by decide) (by decide)).1,
   (add_respects_reserved reservedState [".git/HEAD", "a.txt"] ".git/HEAD"
      (by decide) (by decide)).2.1,
   (add_respects_reserved reservedState [".git/HEAD", "a.txt"] ".git/HEAD"
      (by decide) (by decide)).2.2.1⟩

end MiniGit
